import Mathlib

/-!
Shallow embedding of `scripts/sync_routes.py`: the route-reconciliation
script that ensures desired URL paths, methods and integrations exist on a
shared API gateway, grants invoke permission, and publishes a deployment.

Remote AWS state (the gateway resource tree, methods, integrations, the
permission statements) is modelled as explicit state records; boto3 calls
become state transformers that also record a trace of the calls they issue,
so that claims about which network writes happen can be stated.
-/

namespace SyncRoutes

/-! ## Python truthiness for optional strings

`a or b` on Python optional strings: `None` and the empty string are falsy.
-/

def pyTruthy : Option String → Bool
  | none => false
  | some s => s ≠ ""

def pyOr (a b : Option String) : Option String :=
  if pyTruthy a then a else b

/-- The ambient environment read by `ensure_method_and_integration`
(lines 56-59): the boto3 session default region, the two environment
variables, and the sts client metadata region. -/
structure Env where
  sessionRegion : Option String
  envAwsRegion : Option String
  envAwsDefaultRegion : Option String
  stsMetaRegion : Option String
deriving Repr, DecidableEq

/-- Lines 57-59:
`region = boto3.session.Session().region_name or os.environ.get("AWS_REGION") or os.environ.get("AWS_DEFAULT_REGION")`;
`if not region: region = sts.meta.region_name or "us-east-1"`. -/
def resolveRegion (e : Env) : String :=
  let region := pyOr e.sessionRegion (pyOr e.envAwsRegion e.envAwsDefaultRegion)
  if pyTruthy region then region.getD ""
  else (pyOr e.stsMetaRegion (some "us-east-1")).getD ""

/-- Python `str.split(sep)` on character lists, fuel-recursive so that it
evaluates by kernel reduction; the fuel always suffices because every
recursive call consumes at least one subject character. -/
def pySplitAux (sep : List Char) : Nat → List Char → List Char → List (List Char)
  | _, [], acc => [acc.reverse]
  | 0, cs, acc => [acc.reverse ++ cs]
  | fuel + 1, c :: rest, acc =>
    if sep.isPrefixOf (c :: rest) then
      acc.reverse :: pySplitAux sep fuel (List.drop sep.length (c :: rest)) []
    else
      pySplitAux sep fuel rest (c :: acc)

/-- Python `s.split(sep)` for a non-empty separator. -/
def pySplit (s sep : String) : List String :=
  (pySplitAux sep.data (s.data.length + 1) s.data []).map List.asString

/-- Python `s.replace(old, new)` on character lists: all non-overlapping
occurrences, left to right. -/
def pyReplaceAux (old new : List Char) : Nat → List Char → List Char
  | _, [] => []
  | 0, cs => cs
  | fuel + 1, c :: rest =>
    if old.isPrefixOf (c :: rest) then
      new ++ pyReplaceAux old new fuel (List.drop old.length (c :: rest))
    else
      c :: pyReplaceAux old new fuel rest

/-- Python `s.replace(old, new)` for a non-empty pattern. -/
def pyReplace (s old new : String) : String :=
  (pyReplaceAux old.data new.data (s.data.length + 1) s.data).asString

/-- Lines 55 and 60: the integration URI template with the handler ARN
interpolated, then the region placeholder substituted. -/
def integrationUri (e : Env) (lambdaArn : String) : String :=
  let uri := "arn:aws:apigateway:${AWS_REGION}:lambda:path/2015-03-31/functions/"
      ++ lambdaArn ++ "/invocations"
  pyReplace uri "${AWS_REGION}" (resolveRegion e)

/-! ## The remote gateway resource tree -/

/-- One gateway resource: an opaque id (modelled as `Nat`), its full
slash-delimited path, and its parent id (`none` for the root). -/
structure Res where
  id : Nat
  path : String
  parentId : Option Nat
deriving Repr, DecidableEq

/-- The remote gateway state: the resource tree (in creation order — AWS
appends), a fresh-id counter, the method definitions and the integrations. -/
structure ApiState where
  tree : List Res
  nextId : Nat
  methods : List (Nat × String × String)
  integrations : List ((Nat × String) × (String × String × String))
deriving Repr, DecidableEq

/-- Lines 19-23: fetch all resources (paginated) into a `path -> id` dict.
The dict is modelled as an association list where the most recent insert is
at the head, matching last-write-wins of a Python dict. -/
def fetchResources (tree : List Res) : List (String × Nat) :=
  tree.foldl (fun m r => (r.path, r.id) :: m) []

/-- Python `dict.get` / `dict[...]` on the association-list dict. -/
def lookupD (m : List (String × Nat)) (k : String) : Option Nat :=
  (m.find? (fun kv => kv.1 = k)).map (fun kv => kv.2)

/-- Resolve a resource id on the remote side, as the gateway control plane
does when `create_resource` receives a `parentId`. -/
def findRes (tree : List Res) (i : Nat) : Option Res :=
  tree.find? (fun r => r.id = i)

/-- The full path of a child created under a parent path with one new
segment, as the gateway control plane computes it. -/
def childPath (parentPath seg : String) : String :=
  if parentPath = "/" then "/" ++ seg else parentPath ++ "/" ++ seg

/-- `client.create_resource(restApiId, parentId, pathPart)` (line 36):
fails when the parent id does not resolve (or was `None`); otherwise
appends a fresh node whose path extends the parent path. -/
def create_resource (st : ApiState) (parentId : Option Nat) (seg : String) :
    Option (ApiState × Nat) :=
  match parentId with
  | none => none
  | some pid =>
    match findRes st.tree pid with
    | none => none
    | some pres =>
      let newRes : Res := ⟨st.nextId, childPath pres.path seg, some pid⟩
      some ({ st with tree := st.tree ++ [newRes], nextId := st.nextId + 1 }, st.nextId)

/-- Line 32: `built_path = f"{built_path}/{seg}" if built_path else f"/{seg}"`. -/
def buildStep (built seg : String) : String :=
  if built = "" then "/" ++ seg else built ++ "/" ++ seg

/-- Line 28: `[seg for seg in path.split("/") if seg]`. -/
def pathSegments (path : String) : List String :=
  (pySplit path "/").filter (fun s => s ≠ "")

/-- Loop state of the segment walk in `ensure_path` (lines 31-38):
the remote state, the local `resources` dict, `parent_id`, `built_path`,
and the trace of `create_resource` calls `(parentId, pathPart)` issued. -/
structure EPState where
  st : ApiState
  resources : List (String × Nat)
  parentId : Option Nat
  builtPath : String
  creates : List (Nat × String)
deriving Repr, DecidableEq

/-- One iteration of the `for seg in segments` loop (lines 31-38). -/
def epStep (s : EPState) (seg : String) : Option EPState :=
  let built := buildStep s.builtPath seg
  match lookupD s.resources built with
  | some i => some { s with parentId := some i, builtPath := built }
  | none =>
    match s.parentId, create_resource s.st s.parentId seg with
    | some pid, some (st', newId) =>
      some { st := st', resources := (built, newId) :: s.resources,
             parentId := some newId, builtPath := built,
             creates := s.creates ++ [(pid, seg)] }
    | _, _ => none

def epLoop (s : EPState) : List String → Option EPState
  | [] => some s
  | seg :: rest => (epStep s seg).bind (fun s' => epLoop s' rest)

/-- The loop state at line 29-30: the fetched dict, `parent_id`
initialized from `resources.get("/")`, an empty `built_path`, and no
`create_resource` calls issued yet. -/
def epInit (st : ApiState) : EPState :=
  { st := st, resources := fetchResources st.tree,
    parentId := lookupD (fetchResources st.tree) "/",
    builtPath := "", creates := [] }

/-- `ensure_path(client, rest_api_id, path)` (lines 18-40). Returns the new
remote state, the resolved resource id, and the trace of `create_resource`
calls; `none` models an uncaught exception (a failed create, or the final
`resources[path]` KeyError). -/
def ensure_path (st : ApiState) (path : String) :
    Option (ApiState × Nat × List (Nat × String)) :=
  match lookupD (fetchResources st.tree) path with
  | some i => some (st, i, [])
  | none =>
    match epLoop (epInit st) (pathSegments path) with
    | none => none
    | some sEnd =>
      match lookupD sEnd.resources path with
      | some i => some (sEnd.st, i, sEnd.creates)
      | none => none

/-! ## Method and integration reconciliation -/

/-- Python `str.upper()`, character-wise ASCII uppercasing. -/
def pyUpper (s : String) : String :=
  ⟨s.data.map Char.toUpper⟩

/-- Does `get_method` succeed for this (resource, verb) pair
(line 46; absence raises `NotFoundException`)? -/
def hasMethod (st : ApiState) (rid : Nat) (verb : String) : Bool :=
  st.methods.any (fun m => m.1 = rid ∧ m.2.1 = verb)

/-- `put_method` (lines 48-53): upsert of the (resource, verb) method with
the given authorization type. -/
def putMethodSt (st : ApiState) (rid : Nat) (verb auth : String) : ApiState :=
  { st with methods :=
      st.methods.filter (fun m => ¬(m.1 = rid ∧ m.2.1 = verb)) ++ [(rid, verb, auth)] }

/-- Does `get_integration` succeed for this (resource, verb) pair
(line 63)? -/
def hasIntegration (st : ApiState) (rid : Nat) (verb : String) : Bool :=
  st.integrations.any (fun it => it.1.1 = rid ∧ it.1.2 = verb)

/-- `put_integration` (lines 64-71 and 73-80): upsert of the integration
record `(type, integrationHttpMethod, uri)` for the (resource, verb) pair. -/
def putIntegrationSt (st : ApiState) (rid : Nat) (verb : String)
    (integ : String × String × String) : ApiState :=
  { st with integrations :=
      st.integrations.filter (fun it => ¬(it.1.1 = rid ∧ it.1.2 = verb))
        ++ [((rid, verb), integ)] }

/-- The gateway calls issued by one `ensure_method_and_integration` run. -/
structure EMCalls where
  getMethodCalls : List (Nat × String)
  putMethodCalls : List (Nat × String × String)
  getIntegrationCalls : List (Nat × String)
  putIntegrationCalls : List ((Nat × String) × (String × String × String))
deriving Repr, DecidableEq

/-- `ensure_method_and_integration(client, rest_api_id, resource_id,
http_method, lambda_arn)` (lines 43-80). The verb is uppercased first
(line 44); `put_method` runs only when the method probe raises not-found
(lines 45-53); `put_integration` runs in both branches of the integration
probe with identical arguments (lines 62-80). -/
def ensure_method_and_integration (e : Env) (st : ApiState) (rid : Nat)
    (httpMethod lambdaArn : String) : ApiState × EMCalls :=
  let m := pyUpper httpMethod
  let (st1, putMs) :=
    if hasMethod st rid m then (st, [])
    else (putMethodSt st rid m "NONE", [(rid, m, "NONE")])
  let integ := ("AWS_PROXY", "POST", integrationUri e lambdaArn)
  let (st2, putIs) :=
    if hasIntegration st1 rid m then
      (putIntegrationSt st1 rid m integ, [((rid, m), integ)])
    else
      (putIntegrationSt st1 rid m integ, [((rid, m), integ)])
  (st2, { getMethodCalls := [(rid, m)], putMethodCalls := putMs,
          getIntegrationCalls := [(rid, m)], putIntegrationCalls := putIs })

/-! ## The orchestrator loop (lines 152-157) -/

/-- A remote call, for stating which network operations a run performs. -/
inductive RCall
  | getCallerIdentity
  | getRestApis
  | getFunction (name : String)
  | getResources
  | createResource (parentId : Nat) (pathPart : String)
  | getMethod (rid : Nat) (verb : String)
  | putMethod (rid : Nat) (verb auth : String)
  | getIntegration (rid : Nat) (verb : String)
  | putIntegration (rid : Nat) (verb : String)
  | addPermission (sid : String)
  | createDeployment (stage : String)
deriving Repr, DecidableEq

/-- Remote calls that write to a remote service (as opposed to reads). -/
def RCall.isMutation : RCall → Bool
  | .createResource _ _ => true
  | .putMethod _ _ _ => true
  | .putIntegration _ _ => true
  | .addPermission _ => true
  | .createDeployment _ => true
  | _ => false

def RCall.isCreateResource : RCall → Bool
  | .createResource _ _ => true
  | _ => false

def RCall.isPutMethod : RCall → Bool
  | .putMethod _ _ _ => true
  | _ => false

/-- The remote-call trace of one `ensure_method_and_integration` run, in
issue order: method probe, optional method creation, integration probe,
integration write. -/
def emTrace (c : EMCalls) : List RCall :=
  c.getMethodCalls.map (fun g => RCall.getMethod g.1 g.2)
    ++ c.putMethodCalls.map (fun p => RCall.putMethod p.1 p.2.1 p.2.2)
    ++ c.getIntegrationCalls.map (fun g => RCall.getIntegration g.1 g.2)
    ++ c.putIntegrationCalls.map (fun p => RCall.putIntegration p.1.1 p.1.2)

/-- The fixed method set of line 155. -/
def methods6 : List String := ["GET", "POST", "PUT", "DELETE", "PATCH", "OPTIONS"]

/-- The inner `for method in (...)` loop of lines 155-157. -/
def syncMethods (e : Env) (st : ApiState) (rid : Nat) (lambdaArn : String) :
    List String → ApiState × List RCall
  | [] => (st, [])
  | m :: rest =>
    let r1 := ensure_method_and_integration e st rid m lambdaArn
    let r2 := syncMethods e r1.1 rid lambdaArn rest
    (r2.1, emTrace r1.2 ++ r2.2)

/-- One iteration of the `for path in paths` loop (lines 152-157):
`ensure_path` then the six-method inner loop. -/
def syncPath (e : Env) (st : ApiState) (path lambdaArn : String) :
    Option (ApiState × Nat × List RCall) :=
  match ensure_path st path with
  | none => none
  | some (st1, rid, creates) =>
    let r := syncMethods e st1 rid lambdaArn methods6
    some (r.1, rid,
      RCall.getResources :: creates.map (fun c => RCall.createResource c.1 c.2) ++ r.2)

/-- The whole reconciliation loop over the desired-path list. -/
def reconcile (e : Env) (st : ApiState) (paths : List String) (lambdaArn : String) :
    Option (ApiState × List RCall) :=
  match paths with
  | [] => some (st, [])
  | p :: rest =>
    match syncPath e st p lambdaArn with
    | none => none
    | some (st1, _, tr1) =>
      match reconcile e st1 rest lambdaArn with
      | none => none
      | some (st2, tr2) => some (st2, tr1 ++ tr2)

/-! ## Permission grantor (lines 83-96) -/

/-- Line 84: `lambda_arn.split(":function:")[-1]`. -/
def functionNameOf (lambdaArn : String) : String :=
  (pySplit lambdaArn ":function:").getLastD ""

/-- Line 85: the deterministic statement id. -/
def statementIdOf (restApiId fnName : String) : String :=
  "apigw-" ++ restApiId ++ "-" ++ fnName

/-- The handler-registry (lambda service) state: the permission statements
already attached, keyed by function name and statement id, plus an injected
fault modelling any non-conflict failure of the next grant call. -/
structure LambdaSvc where
  statements : List (String × String)
  fault : Option Nat
deriving Repr, DecidableEq

/-- Outcome of one `lambda_client.add_permission` call. -/
inductive PermOutcome
  | ok (svc : LambdaSvc)
  | conflict
  | failure (e : Nat)
deriving Repr, DecidableEq

/-- `add_permission` (lines 88-94): raises `ResourceConflictException` when
the (function, statement id) pair already exists; any injected fault is
raised as some other exception; otherwise the statement is recorded. -/
def add_permission (svc : LambdaSvc) (fn sid : String) : PermOutcome :=
  match svc.fault with
  | some e => .failure e
  | none =>
    if (fn, sid) ∈ svc.statements then .conflict
    else .ok { svc with statements := svc.statements ++ [(fn, sid)] }

/-- `add_permission_for_apigw` (lines 83-96): computes the statement id,
attempts the grant, and swallows only the resource-conflict exception. -/
def add_permission_for_apigw (svc : LambdaSvc) (lambdaArn restApiId : String)
    (accountId region : String) : Except Nat LambdaSvc :=
  let functionName := functionNameOf lambdaArn
  let sid := statementIdOf restApiId functionName
  let _sourceArn := "arn:aws:execute-api:" ++ region ++ ":" ++ accountId
      ++ ":" ++ restApiId ++ "/*/*/*"
  match add_permission svc lambdaArn sid with
  | .ok svc2 => .ok svc2
  | .conflict => .ok svc
  | .failure e => .error e

/-! ## Configuration loading (lines 103-108) -/

/-- A parsed JSON value, as `json.load` produces it. -/
inductive JVal
  | null
  | bool (b : Bool)
  | num (n : Int)
  | str (s : String)
  | arr (xs : List JVal)
  | obj (kvs : List (String × JVal))

mutual

/-- Python `repr` of a JSON-loaded value, used for values nested inside
containers when `str` is applied to the container. -/
def pyRepr : JVal → String
  | .null => "None"
  | .bool b => if b then "True" else "False"
  | .num n => toString n
  | .str s => "\x27" ++ s ++ "\x27"
  | .arr xs => "[" ++ pyReprList xs ++ "]"
  | .obj kvs => "\x7b" ++ pyReprObj kvs ++ "\x7d"

def pyReprList : List JVal → String
  | [] => ""
  | [x] => pyRepr x
  | x :: y :: rest => pyRepr x ++ ", " ++ pyReprList (y :: rest)

def pyReprObj : List (String × JVal) → String
  | [] => ""
  | [kv] => "\x27" ++ kv.1 ++ "\x27: " ++ pyRepr kv.2
  | kv :: kv2 :: rest =>
      "\x27" ++ kv.1 ++ "\x27: " ++ pyRepr kv.2 ++ ", " ++ pyReprObj (kv2 :: rest)

end

/-- Python `str(p)` for a JSON-loaded value `p` (line 108). -/
def pyStr : JVal → String
  | .str s => s
  | v => pyRepr v

/-- A fatal configuration failure of `load_paths`. -/
inductive ConfigErr
  | readError
  | valueError
deriving Repr, DecidableEq

/-- `load_paths(config_path)` (lines 103-108). `none` models a missing or
unparsable file (`open`/`json.load` raising); a parsed value that is not a
list raises `ValueError`; otherwise every element is coerced with `str`. -/
def load_paths (config : Option JVal) : Except ConfigErr (List String) :=
  match config with
  | none => .error .readError
  | some data =>
    match data with
    | .arr xs => .ok (xs.map pyStr)
    | _ => .error .valueError

/-! ## The orchestrator `main` (lines 111-162) -/

/-- `find_rest_api_id_by_name` (lines 9-15): first name match wins. -/
def find_rest_api_id_by_name (apis : List (String × String)) (name : String) :
    Option String :=
  (apis.find? (fun a => a.1 = name)).map (fun a => a.2)

/-- `deploy_stage` (lines 99-100) is an unconditional `create_deployment`
write; in the model the gateway state does not record deployments, so this
only contributes its remote call to the trace. -/
def deploy_stage (stage : String) : List RCall :=
  [RCall.createDeployment stage]

/-- The region computed in `main` (lines 128-133). -/
def mainRegion (e : Env) : String :=
  (pyOr e.sessionRegion
    (pyOr e.envAwsRegion
      (pyOr e.envAwsDefaultRegion (some "us-east-1")))).getD ""

/-- The command-line arguments after parsing (lines 112-118). -/
structure Args where
  module : String
  stage : String
  apiName : String
  lambdaNamePrefix : String
deriving Repr, DecidableEq

/-- Everything external that one run reads: the ambient environment, the
gateway listing, the handler registry, the caller identity, the module
configuration file content, and the initial gateway and lambda states. -/
structure World where
  env : Env
  apis : List (String × String)
  lambdaFns : List (String × String)
  accountId : String
  config : Option JVal
  api0 : ApiState
  lambdaSvc : LambdaSvc

/-- How a run of `main` aborts (a propagated exception). -/
inductive MainErr
  | apiNotFound
  | lambdaNotFound
  | configError (e : ConfigErr)
  | syncError
  | permFailure (e : Nat)
deriving Repr, DecidableEq

/-- `main` (lines 111-162), from the first remote call onwards: caller
identity (line 127), gateway lookup (line 138), handler resolution
(line 146), configuration load (line 150), the reconciliation loop
(lines 152-157), the permission grant (line 159) and the deployment
(line 161). Returns the outcome together with the trace of remote calls
issued before returning or aborting (a run aborting inside the
reconciliation loop truncates the trace at the loop's start). -/
def runMain (w : World) (args : Args) :
    Except MainErr (ApiState × LambdaSvc) × List RCall :=
  let lambdaName := args.lambdaNamePrefix ++ args.module
  let tr0 := [RCall.getCallerIdentity]
  let tr1 := tr0 ++ [RCall.getRestApis]
  match find_rest_api_id_by_name w.apis args.apiName with
  | none => (.error .apiNotFound, tr1)
  | some restApiId =>
    let tr2 := tr1 ++ [RCall.getFunction lambdaName]
    match (w.lambdaFns.find? (fun f => f.1 = lambdaName)).map (fun f => f.2) with
    | none => (.error .lambdaNotFound, tr2)
    | some lambdaArn =>
      match load_paths w.config with
      | .error e => (.error (.configError e), tr2)
      | .ok paths =>
        match reconcile w.env w.api0 paths lambdaArn with
        | none => (.error .syncError, tr2)
        | some (st1, trLoop) =>
          let tr3 := tr2 ++ trLoop
          let fnName := functionNameOf lambdaArn
          let tr4 := tr3 ++ [RCall.addPermission (statementIdOf restApiId fnName)]
          match add_permission_for_apigw w.lambdaSvc lambdaArn restApiId
              w.accountId (mainRegion w.env) with
          | .error e => (.error (.permFailure e), tr4)
          | .ok svc1 => (.ok (st1, svc1), tr4 ++ deploy_stage args.stage)

/-! ## Spec-side definitions and well-formedness predicates -/

/-- Written from the spec sentence of claim C9: region resolution is
claimed to be session default, then environment override, then the
hardcoded default region — with no other fallback in between. -/
def resolveRegionSpec (e : Env) : String :=
  (pyOr e.sessionRegion
    (pyOr e.envAwsRegion
      (pyOr e.envAwsDefaultRegion (some "us-east-1")))).getD ""

/-- First truthy candidate in a precedence list, else the default: the
shape of the amended region-resolution order. -/
def firstTruthyD : List (Option String) → String → String
  | [], d => d
  | o :: rest, d => if pyTruthy o then o.getD "" else firstTruthyD rest d

/-- Written from the spec sentence of claim C5: a configuration value that
is a JSON array whose elements are all JSON strings. -/
def isStringList (v : JVal) : Prop :=
  ∃ xs : List String, v = JVal.arr (xs.map JVal.str)

/-- The partial paths built while walking `segs` from `built`
(`/a`, `/a/b`, ...), in walk order. -/
def builtPrefixes (built : String) : List String → List String
  | [] => []
  | seg :: rest =>
    let b1 := buildStep built seg
    b1 :: builtPrefixes b1 rest

/-- Nodes appended to a base tree respect creation order: each one's
parent is a node of the base tree or an earlier appended node — the
parent-before-child creation discipline. -/
def parentsPrior (base : List Res) : List Res → Prop
  | [] => True
  | n :: rest => (∃ p ∈ base, n.parentId = some p.id) ∧ parentsPrior (base ++ [n]) rest

/-- Well-formedness of a remote gateway state, as the gateway control
plane guarantees it: resource ids are pairwise distinct and below the
fresh-id counter, and resource paths are pairwise distinct. -/
def wfState (st : ApiState) : Prop :=
  (st.tree.map Res.id).Nodup ∧ (st.tree.map Res.path).Nodup ∧
    ∀ r ∈ st.tree, r.id < st.nextId

/-- The gateway tree contains a node for every partial path of every node
path, as real gateways do (children are only ever created under an
existing parent). -/
def prefixClosed (st : ApiState) : Prop :=
  ∀ r ∈ st.tree, ∀ q ∈ builtPrefixes "" (pathSegments r.path),
    ∃ r2 ∈ st.tree, r2.path = q

/-- A desired path is fully reconciled in a state: its resource exists and
all six fixed methods exist on that resource. -/
def pathDone (st : ApiState) (p : String) : Prop :=
  ∃ r ∈ st.tree, r.path = p ∧ ∀ m ∈ methods6, hasMethod st r.id (pyUpper m) = true

/-- Invariant of the segment-walk loop state inside `ensure_path`: the
local dict mirrors the remote tree, `parent_id` resolves to the node of
the current partial path, and the remote state is well formed. -/
structure EPInv (s : EPState) : Prop where
  wfIds : (s.st.tree.map Res.id).Nodup
  wfPaths : (s.st.tree.map Res.path).Nodup
  wfFresh : ∀ r ∈ s.st.tree, r.id < s.st.nextId
  dictSound : ∀ p i, lookupD s.resources p = some i →
    ∃ r ∈ s.st.tree, r.path = p ∧ r.id = i
  dictComplete : ∀ r ∈ s.st.tree, ∃ i, lookupD s.resources r.path = some i
  parentOk : ∀ pid, s.parentId = some pid →
    ∃ r ∈ s.st.tree, r.id = pid ∧ r.path = (if s.builtPath = "" then "/" else s.builtPath)
  builtOk : s.builtPath ≠ "/"

/-! ## Basic lemmas -/

theorem char_toUpper_lower (c : Char) (h : 97 ≤ c.toNat ∧ c.toNat ≤ 122) :
    (Char.toUpper c).toNat = c.toNat - 32 := by
  have hv : Nat.isValidChar (c.toNat - 32) := Or.inl (by omega)
  simp only [Char.toUpper]
  rw [if_pos ⟨h.1, h.2⟩, Char.ofNat, dif_pos hv]
  rfl

theorem char_toUpper_other (c : Char) (h : ¬(97 ≤ c.toNat ∧ c.toNat ≤ 122)) :
    Char.toUpper c = c := by
  simp only [Char.toUpper]
  rw [if_neg]
  exact fun hc => h ⟨hc.1, hc.2⟩

theorem char_toUpper_idem (c : Char) : c.toUpper.toUpper = c.toUpper := by
  by_cases h : 97 ≤ c.toNat ∧ c.toNat ≤ 122
  · have h1 : (Char.toUpper c).toNat = c.toNat - 32 := char_toUpper_lower c h
    have h2 : ¬(97 ≤ (Char.toUpper c).toNat ∧ (Char.toUpper c).toNat ≤ 122) := by
      rw [h1]; omega
    exact char_toUpper_other _ h2
  · rw [char_toUpper_other c h, char_toUpper_other c h]

theorem pyUpper_idem (s : String) : pyUpper (pyUpper s) = pyUpper s := by
  unfold pyUpper
  apply congrArg String.mk
  show (s.data.map Char.toUpper).map Char.toUpper = s.data.map Char.toUpper
  rw [List.map_map]
  exact List.map_congr_left (fun c _ => char_toUpper_idem c)

/-! ## C3: an already-present path is returned without any write -/

/-- C3: when the exact path is present in the fetched path-to-id mapping,
`ensure_path` returns its id immediately, leaves the remote state
untouched, and issues no `create_resource` call. -/
theorem ensure_path_hit_no_writes (st : ApiState) (path : String) (i : Nat)
    (h : lookupD (fetchResources st.tree) path = some i) :
    ensure_path st path = some (st, i, []) := by
  simp [ensure_path, h]

/-- Witness for C3 on a two-node tree that already contains the path. -/
theorem ensure_path_hit_no_writes_witness :
    ensure_path ⟨[⟨0, "/", none⟩, ⟨1, "/orders", some 0⟩], 2, [], []⟩ "/orders" =
      some (⟨[⟨0, "/", none⟩, ⟨1, "/orders", some 0⟩], 2, [], []⟩, 1, []) :=
  ensure_path_hit_no_writes _ _ 1 (by decide)

/-! ## C9: region resolution order -/

/-- C9 counterexample: with no session region and no environment override
but an sts client metadata region set, the code resolves that metadata
region, not the hardcoded default the claimed order dictates. -/
theorem resolveRegion_spec_counterexample :
    resolveRegion ⟨none, none, none, some "eu-west-1"⟩ ≠
      resolveRegionSpec ⟨none, none, none, some "eu-west-1"⟩ := by
  decide

/-- C9 (amended): the region is the first truthy candidate of session
default, then the `AWS_REGION` environment variable, then
`AWS_DEFAULT_REGION`, then the sts client metadata region, with the
hardcoded `us-east-1` used when all four are unset or empty. -/
theorem resolveRegion_order (e : Env) :
    resolveRegion e = firstTruthyD
      [e.sessionRegion, e.envAwsRegion, e.envAwsDefaultRegion, e.stsMetaRegion]
      "us-east-1" := by
  unfold resolveRegion firstTruthyD
  by_cases h1 : pyTruthy e.sessionRegion
  · simp [pyOr, h1]
  · simp only [pyOr, h1, Bool.false_eq_true, if_false, firstTruthyD]
    by_cases h2 : pyTruthy e.envAwsRegion
    · simp [h2]
    · simp only [h2, Bool.false_eq_true, if_false, firstTruthyD]
      by_cases h3 : pyTruthy e.envAwsDefaultRegion
      · simp [h3]
      · simp only [h3, Bool.false_eq_true, if_false, firstTruthyD]
        by_cases h4 : pyTruthy e.stsMetaRegion
        · simp [h4]
        · simp [h4, firstTruthyD]

/-! ## C5: what configuration contents load successfully -/

/-- C5 counterexample: a JSON array containing the number 3 is not a list
of strings, yet `load_paths` accepts it and coerces the element to "3". -/
theorem load_paths_nonstring_counterexample :
    ¬ isStringList (JVal.arr [JVal.num 3]) ∧
      load_paths (some (JVal.arr [JVal.num 3])) = Except.ok ["3"] := by
  refine ⟨?_, rfl⟩
  rintro ⟨xs, hxs⟩
  cases xs with
  | nil => simp at hxs
  | cons a t => simp at hxs

/-- C5 (amended): loading succeeds exactly when the configuration file
parses to a JSON array; the elements need not be strings — each one is
coerced to a string. Missing/unparsable files and non-array values fail
fatally. -/
theorem load_paths_ok_iff :
    (∀ c : Option JVal,
        (∃ l, load_paths c = Except.ok l) ↔ ∃ xs, c = some (JVal.arr xs)) ∧
      ∀ xs, load_paths (some (JVal.arr xs)) = Except.ok (xs.map pyStr) := by
  constructor
  · intro c
    constructor
    · rintro ⟨l, hl⟩
      match c with
      | none => simp [load_paths] at hl
      | some v => cases v <;> simp_all [load_paths]
    · rintro ⟨xs, rfl⟩
      exact ⟨xs.map pyStr, rfl⟩
  · intro xs
    rfl

/-! ## C6: the integration write is unconditional and fixed-shape -/

/-- C6: every `ensure_method_and_integration` call issues exactly one
`put_integration` write — whether or not an integration already existed —
with type `AWS_PROXY`, invocation transport `POST` regardless of the
declared method, and the URI computed from the handler ARN and the
resolved region. -/
theorem put_integration_unconditional (e : Env) (st : ApiState) (rid : Nat)
    (m arn : String) :
    (ensure_method_and_integration e st rid m arn).2.putIntegrationCalls =
      [((rid, pyUpper m), ("AWS_PROXY", "POST", integrationUri e arn))] := by
  unfold ensure_method_and_integration
  by_cases h1 : hasMethod st rid (pyUpper m) <;>
    simp [h1]

/-! ## C7: the method write happens exactly when the probe misses -/

/-- C7: `ensure_method_and_integration` probes the method once; it issues a
`put_method` with authorization type `NONE` exactly when the probe reports
the method absent, and an already-existing method set is left untouched. -/
theorem put_method_iff_absent (e : Env) (st : ApiState) (rid : Nat)
    (m arn : String) :
    (ensure_method_and_integration e st rid m arn).2.getMethodCalls =
      [(rid, pyUpper m)] ∧
    (ensure_method_and_integration e st rid m arn).2.putMethodCalls =
      (if hasMethod st rid (pyUpper m) = true then []
        else [(rid, pyUpper m, "NONE")]) ∧
    (hasMethod st rid (pyUpper m) = true →
      (ensure_method_and_integration e st rid m arn).1.methods = st.methods) := by
  refine ⟨?_, ?_, ?_⟩ <;>
    · unfold ensure_method_and_integration
      by_cases h1 : hasMethod st rid (pyUpper m) <;> simp [h1, putIntegrationSt]

/-- Witness for C7: with the `GET` method already present on resource 0,
the reconciler leaves the method set untouched. -/
theorem put_method_iff_absent_witness :
    (ensure_method_and_integration ⟨none, none, none, none⟩
        ⟨[⟨0, "/", none⟩], 1, [(0, "GET", "NONE")], []⟩ 0 "get" "arnX").1.methods =
      [(0, "GET", "NONE")] :=
  (put_method_iff_absent ⟨none, none, none, none⟩
    ⟨[⟨0, "/", none⟩], 1, [(0, "GET", "NONE")], []⟩ 0 "get" "arnX").2.2 (by decide)

/-! ## C8: deterministic statement id, conflict swallowed, faults surface -/

/-- C8: the permission grant uses the statement id derived from the
gateway id and handler name; when the statement already exists the
conflict is swallowed and the call returns success with the lambda state
unchanged; any other failure of the grant call propagates; and repeating a
successful grant is a no-op success (same statement id, so the second call
conflicts and is swallowed). -/
theorem add_permission_for_apigw_spec (svc : LambdaSvc) (arn rest acct reg : String) :
    (svc.fault = none →
      (arn, statementIdOf rest (functionNameOf arn)) ∈ svc.statements →
      add_permission_for_apigw svc arn rest acct reg = Except.ok svc) ∧
    (∀ err, svc.fault = some err →
      add_permission_for_apigw svc arn rest acct reg = Except.error err) ∧
    (∀ svc2, svc.fault = none →
      add_permission_for_apigw svc arn rest acct reg = Except.ok svc2 →
      add_permission_for_apigw svc2 arn rest acct reg = Except.ok svc2) := by
  refine ⟨?_, ?_, ?_⟩
  · intro hf hmem
    simp [add_permission_for_apigw, add_permission, hf, hmem]
  · intro err hf
    simp [add_permission_for_apigw, add_permission, hf]
  · intro svc2 hf hok
    by_cases hmem : (arn, statementIdOf rest (functionNameOf arn)) ∈ svc.statements
    · simp [add_permission_for_apigw, add_permission, hf, hmem] at hok
      subst hok
      simp [add_permission_for_apigw, add_permission, hf, hmem]
    · simp [add_permission_for_apigw, add_permission, hf, hmem] at hok
      subst hok
      simp [add_permission_for_apigw, add_permission, hf]

/-- Witness for C8: a lambda state already holding the statement for
gateway `r1` and handler `fnA` accepts the repeated grant as success. -/
theorem add_permission_for_apigw_spec_witness :
    add_permission_for_apigw ⟨[("fnA", "apigw-r1-fnA")], none⟩ "fnA" "r1" "acct" "reg" =
      Except.ok ⟨[("fnA", "apigw-r1-fnA")], none⟩ :=
  (add_permission_for_apigw_spec ⟨[("fnA", "apigw-r1-fnA")], none⟩
    "fnA" "r1" "acct" "reg").1 rfl (by decide)

/-! ## C10: verb normalization to uppercase -/

/-- C10: `ensure_method_and_integration` behaves identically on a verb and
its uppercase form, and every method/integration gateway call it issues
uses the uppercased verb. -/
theorem verb_uppercase_normalized (e : Env) (st : ApiState) (rid : Nat)
    (m arn : String) :
    ensure_method_and_integration e st rid (pyUpper m) arn =
      ensure_method_and_integration e st rid m arn ∧
    (ensure_method_and_integration e st rid m arn).2.getMethodCalls =
      [(rid, pyUpper m)] ∧
    (ensure_method_and_integration e st rid m arn).2.getIntegrationCalls =
      [(rid, pyUpper m)] ∧
    (∀ c ∈ (ensure_method_and_integration e st rid m arn).2.putMethodCalls,
      c.2.1 = pyUpper m) ∧
    (∀ c ∈ (ensure_method_and_integration e st rid m arn).2.putIntegrationCalls,
      c.1.2 = pyUpper m) := by
  refine ⟨?_, ?_, ?_, ?_, ?_⟩
  · unfold ensure_method_and_integration
    rw [pyUpper_idem]
  · unfold ensure_method_and_integration
    by_cases h1 : hasMethod st rid (pyUpper m) <;> simp [h1]
  · unfold ensure_method_and_integration
    by_cases h1 : hasMethod st rid (pyUpper m) <;> simp [h1]
  · unfold ensure_method_and_integration
    by_cases h1 : hasMethod st rid (pyUpper m) <;> simp [h1]
  · unfold ensure_method_and_integration
    by_cases h1 : hasMethod st rid (pyUpper m) <;> simp [h1]

/-- Witness for C10: the single `put_method` issued for the lowercase verb
`get` carries the uppercased verb `GET`. -/
theorem verb_uppercase_normalized_witness :
    (0, ("GET", "NONE")).2.1 = pyUpper "get" :=
  (verb_uppercase_normalized ⟨none, none, none, none⟩
      ⟨[⟨0, "/", none⟩], 1, [], []⟩ 0 "get" "arnX").2.2.2.1
    (0, ("GET", "NONE")) (by decide)

/-! ## Dictionary and tree lemmas -/

theorem fetchResources_eq (tree : List Res) :
    fetchResources tree = (tree.map (fun r => (r.path, r.id))).reverse := by
  suffices h : ∀ acc, tree.foldl (fun m r => (r.path, r.id) :: m) acc =
      (tree.map (fun r => (r.path, r.id))).reverse ++ acc by
    simpa [fetchResources] using h []
  induction tree with
  | nil => intro acc; simp
  | cons r t ih => intro acc; simp [ih]

theorem lookupD_mem {m : List (String × Nat)} {p : String} {i : Nat}
    (h : lookupD m p = some i) : (p, i) ∈ m := by
  unfold lookupD at h
  cases hf : m.find? (fun kv => kv.1 = p) with
  | none => rw [hf] at h; simp at h
  | some kv =>
    rw [hf] at h
    have hm := List.mem_of_find?_eq_some hf
    have hp := List.find?_some hf
    simp only [decide_eq_true_eq] at hp
    obtain ⟨k, v⟩ := kv
    have hv : v = i := by simpa using h
    cases hv
    cases hp
    exact hm

theorem lookupD_some_of_mem {m : List (String × Nat)} {kv : String × Nat}
    (h : kv ∈ m) : ∃ i, lookupD m kv.1 = some i := by
  unfold lookupD
  cases hf : m.find? (fun x => x.1 = kv.1) with
  | none =>
    exfalso
    have hx := List.find?_eq_none.mp hf kv h
    simp at hx
  | some a => exact ⟨a.2, by simp⟩

theorem lookupD_none {m : List (String × Nat)} {p : String}
    (h : lookupD m p = none) : ∀ kv ∈ m, kv.1 ≠ p := by
  intro kv hkv
  unfold lookupD at h
  cases hf : m.find? (fun x => x.1 = p) with
  | none => simpa using List.find?_eq_none.mp hf kv hkv
  | some a => rw [hf] at h; simp at h

theorem lookupD_cons (k : String) (v : Nat) (m : List (String × Nat)) (q : String) :
    lookupD ((k, v) :: m) q = if k = q then some v else lookupD m q := by
  by_cases h : k = q <;> simp [lookupD, List.find?, h]

theorem lookupD_fetch_sound {tree : List Res} {p : String} {i : Nat}
    (h : lookupD (fetchResources tree) p = some i) :
    ∃ r ∈ tree, r.path = p ∧ r.id = i := by
  have hm := lookupD_mem h
  rw [fetchResources_eq] at hm
  rw [List.mem_reverse, List.mem_map] at hm
  obtain ⟨r, hr, heq⟩ := hm
  exact ⟨r, hr, congrArg Prod.fst heq, congrArg Prod.snd heq⟩

theorem lookupD_fetch_complete {tree : List Res} {r : Res} (h : r ∈ tree) :
    ∃ i, lookupD (fetchResources tree) r.path = some i := by
  have hm : (r.path, r.id) ∈ fetchResources tree := by
    rw [fetchResources_eq, List.mem_reverse, List.mem_map]
    exact ⟨r, h, rfl⟩
  exact lookupD_some_of_mem hm

theorem nodup_map_unique {α β : Type} {f : α → β} {l : List α}
    (hnd : (l.map f).Nodup) {x y : α} (hx : x ∈ l) (hy : y ∈ l)
    (hf : f x = f y) : x = y :=
  List.inj_on_of_nodup_map hnd hx hy hf

theorem parentsPrior_append {base : List Res} :
    ∀ {n1 n2 : List Res}, parentsPrior base n1 → parentsPrior (base ++ n1) n2 →
      parentsPrior base (n1 ++ n2) := by
  intro n1
  induction n1 generalizing base with
  | nil => intro n2 _ h2; simpa using h2
  | cons a t ih =>
    intro n2 h1 h2
    refine ⟨h1.1, ?_⟩
    exact ih h1.2 (by simpa [List.append_assoc] using h2)

theorem length_ne_zero_of_ne_empty {s : String} (h : s ≠ "") : s.length ≠ 0 := by
  intro h0
  apply h
  apply String.ext
  have hd : s.data = [] := List.length_eq_zero.mp h0
  rw [hd]

theorem buildStep_ne_empty (b seg : String) : buildStep b seg ≠ "" := by
  have h1 : ("/" : String).length = 1 := rfl
  have h0 : ("" : String).length = 0 := rfl
  unfold buildStep
  by_cases h : b = ""
  · rw [if_pos h]
    intro hc
    have hl := congrArg String.length hc
    rw [String.length_append, h1, h0] at hl
    omega
  · rw [if_neg h]
    intro hc
    have hl := congrArg String.length hc
    rw [String.length_append, String.length_append, h1, h0] at hl
    have hb := length_ne_zero_of_ne_empty h
    omega

theorem buildStep_ne_slash (b seg : String) (hseg : seg ≠ "") :
    buildStep b seg ≠ "/" := by
  have h1 : ("/" : String).length = 1 := rfl
  have hlen := length_ne_zero_of_ne_empty hseg
  unfold buildStep
  by_cases h : b = ""
  · rw [if_pos h]
    intro hc
    have hl := congrArg String.length hc
    rw [String.length_append, h1] at hl
    omega
  · rw [if_neg h]
    intro hc
    have hl := congrArg String.length hc
    rw [String.length_append, String.length_append, h1] at hl
    have hb := length_ne_zero_of_ne_empty h
    omega

theorem childPath_normBuilt (b seg : String) (hb : b ≠ "/") :
    childPath (if b = "" then "/" else b) seg = buildStep b seg := by
  by_cases h : b = "" <;> simp [childPath, buildStep, h, hb]

/-! ## The segment-walk loop: invariant preservation -/

theorem epStep_spec {s s' : EPState} {seg : String} (hseg : seg ≠ "")
    (hstep : epStep s seg = some s') (hinv : EPInv s) :
    EPInv s' ∧
    (∃ news, s'.st.tree = s.st.tree ++ news ∧ parentsPrior s.st.tree news) ∧
    s'.st.methods = s.st.methods ∧
    s'.st.integrations = s.st.integrations ∧
    s.st.nextId ≤ s'.st.nextId ∧
    s'.builtPath = buildStep s.builtPath seg ∧
    (∃ j, lookupD s'.resources (buildStep s.builtPath seg) = some j) ∧
    s'.parentId.isSome = true ∧
    (∀ q i, lookupD s.resources q = some i → ∃ j, lookupD s'.resources q = some j) ∧
    (∃ newCs, s'.creates = s.creates ++ newCs ∧ ∀ c ∈ newCs,
      ∃ rp ∈ s'.st.tree, rp.id = c.1 ∧
        ∃ rc ∈ s'.st.tree, rc.path = childPath rp.path c.2 ∧ rc.parentId = some c.1) := by
  have hbne := buildStep_ne_empty s.builtPath seg
  have hbns := buildStep_ne_slash s.builtPath seg hseg
  simp only [epStep] at hstep
  cases hl : lookupD s.resources (buildStep s.builtPath seg) with
  | some i =>
    rw [hl] at hstep
    simp only [Option.some.injEq] at hstep
    subst hstep
    obtain ⟨r, hr, hrpath, hrid⟩ := hinv.dictSound _ _ hl
    refine ⟨?_, ⟨[], by simp, trivial⟩, rfl, rfl, le_refl _, rfl, ⟨i, hl⟩, rfl,
      fun q j hq => ⟨j, hq⟩, ⟨[], by simp, by simp⟩⟩
    exact { wfIds := hinv.wfIds, wfPaths := hinv.wfPaths, wfFresh := hinv.wfFresh,
            dictSound := hinv.dictSound, dictComplete := hinv.dictComplete,
            parentOk := by
              intro pid hpid
              simp only [Option.some.injEq] at hpid
              subst hpid
              exact ⟨r, hr, hrid, by rw [if_neg hbne]; exact hrpath⟩,
            builtOk := hbns }
  | none =>
    rw [hl] at hstep
    cases hp : s.parentId with
    | none => rw [hp] at hstep; simp at hstep
    | some pid =>
      rw [hp] at hstep
      cases hc : create_resource s.st (some pid) seg with
      | none => rw [hc] at hstep; simp at hstep
      | some pr =>
        rw [hc] at hstep
        obtain ⟨st1, newId⟩ := pr
        simp only [Option.some.injEq] at hstep
        subst hstep
        obtain ⟨rp, hrp, hrpid, hrppath⟩ := hinv.parentOk pid hp
        simp only [create_resource] at hc
        cases hf : findRes s.st.tree pid with
        | none => rw [hf] at hc; simp at hc
        | some pres =>
          rw [hf] at hc
          simp only [Option.some.injEq, Prod.mk.injEq] at hc
          obtain ⟨hc1, hc2⟩ := hc
          have hpresmem : pres ∈ s.st.tree := List.mem_of_find?_eq_some hf
          have hpresid : pres.id = pid := by
            have := List.find?_some hf
            simpa using this
          have hpres_eq : pres = rp :=
            nodup_map_unique hinv.wfIds hpresmem hrp (by rw [hpresid, hrpid])
          have hprespath : pres.path = if s.builtPath = "" then "/" else s.builtPath := by
            rw [hpres_eq]; exact hrppath
          have hnewpath : childPath pres.path seg = buildStep s.builtPath seg := by
            rw [hprespath]
            exact childPath_normBuilt s.builtPath seg hinv.builtOk
          set newRes : Res := ⟨s.st.nextId, childPath pres.path seg, some pid⟩ with hnewres
          have htree1 : st1.tree = s.st.tree ++ [newRes] := by rw [← hc1]
          have hmeth1 : st1.methods = s.st.methods := by rw [← hc1]
          have hint1 : st1.integrations = s.st.integrations := by rw [← hc1]
          have hnext1 : st1.nextId = s.st.nextId + 1 := by rw [← hc1]
          have hnewid : newId = s.st.nextId := hc2.symm
          have hbuilt_not_old : ∀ r ∈ s.st.tree, r.path ≠ buildStep s.builtPath seg := by
            intro r hr hcontra
            obtain ⟨j, hj⟩ := hinv.dictComplete r hr
            rw [hcontra] at hj
            rw [hl] at hj
            exact Option.noConfusion hj
          refine ⟨?_, ⟨[newRes], htree1, ⟨⟨rp, hrp, by rw [hrpid]⟩, trivial⟩⟩,
            hmeth1, hint1, by rw [hnext1]; omega, rfl,
            ⟨newId, by rw [lookupD_cons, if_pos rfl]⟩, rfl,
            ?_, ⟨[(pid, seg)], rfl, ?_⟩⟩
          · refine { wfIds := ?_, wfPaths := ?_, wfFresh := ?_, dictSound := ?_,
                     dictComplete := ?_, parentOk := ?_, builtOk := hbns }
            · rw [htree1, List.map_append, List.nodup_append]
              refine ⟨hinv.wfIds, by simp, ?_⟩
              intro x hx
              simp only [List.mem_map] at hx
              obtain ⟨r, hr, hrx⟩ := hx
              have := hinv.wfFresh r hr
              simp only [List.map_cons, List.map_nil, List.mem_singleton]
              intro hx1
              rw [hx1] at hrx
              rw [← hrx] at this
              omega
            · rw [htree1, List.map_append, List.nodup_append]
              refine ⟨hinv.wfPaths, by simp, ?_⟩
              intro x hx
              simp only [List.mem_map] at hx
              obtain ⟨r, hr, hrx⟩ := hx
              simp only [List.map_cons, List.map_nil, List.mem_singleton]
              intro hx1
              rw [hx1] at hrx
              exact hbuilt_not_old r hr (hrx.trans hnewpath)
            · intro r hr
              rw [htree1] at hr
              rw [hnext1]
              rcases List.mem_append.mp hr with h1 | h1
              · have := hinv.wfFresh r h1; omega
              · simp only [List.mem_singleton] at h1
                rw [h1]
                simp
            · intro p j hpj
              rw [lookupD_cons] at hpj
              by_cases hq : buildStep s.builtPath seg = p
              · rw [if_pos hq] at hpj
                simp only [Option.some.injEq] at hpj
                refine ⟨newRes, by rw [htree1]; simp, ?_, ?_⟩
                · exact hnewpath.trans hq
                · exact hnewid.symm.trans hpj
              · rw [if_neg hq] at hpj
                obtain ⟨r, hr, h1, h2⟩ := hinv.dictSound p j hpj
                exact ⟨r, by rw [htree1]; exact List.mem_append_left _ hr, h1, h2⟩
            · intro r hr
              rw [htree1] at hr
              rcases List.mem_append.mp hr with h1 | h1
              · obtain ⟨j, hj⟩ := hinv.dictComplete r h1
                rw [lookupD_cons]
                by_cases hq : buildStep s.builtPath seg = r.path
                · exact ⟨newId, by rw [if_pos hq]⟩
                · exact ⟨j, by rw [if_neg hq]; exact hj⟩
              · simp only [List.mem_singleton] at h1
                rw [h1]
                have : newRes.path = buildStep s.builtPath seg := hnewpath
                rw [this, lookupD_cons, if_pos rfl]
                exact ⟨newId, rfl⟩
            · intro pid2 hpid2
              simp only [Option.some.injEq] at hpid2
              refine ⟨newRes, by rw [htree1]; simp, ?_, ?_⟩
              · exact hnewid.symm.trans hpid2
              · rw [if_neg hbne]
                exact hnewpath
          · intro q j hq
            rw [lookupD_cons]
            by_cases hbq : buildStep s.builtPath seg = q
            · exact ⟨newId, by rw [if_pos hbq]⟩
            · exact ⟨j, by rw [if_neg hbq]; exact hq⟩
          · intro c hcmem
            simp only [List.mem_singleton] at hcmem
            subst hcmem
            refine ⟨pres, by rw [htree1]; exact List.mem_append_left _ hpresmem, hpresid, ?_⟩
            exact ⟨newRes, by rw [htree1]; simp, rfl, rfl⟩

theorem epLoop_spec : ∀ (segs : List String) (s s' : EPState),
    epLoop s segs = some s' → EPInv s → (∀ seg ∈ segs, seg ≠ "") →
    EPInv s' ∧
    (∃ news, s'.st.tree = s.st.tree ++ news ∧ parentsPrior s.st.tree news) ∧
    s'.st.methods = s.st.methods ∧
    s'.st.integrations = s.st.integrations ∧
    s.st.nextId ≤ s'.st.nextId ∧
    s'.builtPath = List.foldl buildStep s.builtPath segs ∧
    (∀ q ∈ builtPrefixes s.builtPath segs, ∃ j, lookupD s'.resources q = some j) ∧
    (∀ q i, lookupD s.resources q = some i → ∃ j, lookupD s'.resources q = some j) ∧
    (∃ newCs, s'.creates = s.creates ++ newCs ∧ ∀ c ∈ newCs,
      ∃ rp ∈ s'.st.tree, rp.id = c.1 ∧
        ∃ rc ∈ s'.st.tree, rc.path = childPath rp.path c.2 ∧ rc.parentId = some c.1) := by
  intro segs
  induction segs with
  | nil =>
    intro s s' h hinv _
    simp only [epLoop, Option.some.injEq] at h
    subst h
    exact ⟨hinv, ⟨[], by simp, trivial⟩, rfl, rfl, le_refl _, rfl,
      by simp [builtPrefixes], fun q i hq => ⟨i, hq⟩, ⟨[], by simp, by simp⟩⟩
  | cons seg rest ih =>
    intro s s' h hinv hne
    have hseg : seg ≠ "" := hne seg (List.mem_cons_self _ _)
    have hrest : ∀ x ∈ rest, x ≠ "" := fun x hx => hne x (List.mem_cons_of_mem _ hx)
    simp only [epLoop] at h
    cases h1 : epStep s seg with
    | none => rw [h1] at h; simp at h
    | some s1 =>
      rw [h1] at h
      replace h : epLoop s1 rest = some s' := h
      obtain ⟨inv1, ⟨n1, htree1, hpp1⟩, hm1, hi1, hn1, hb1, ⟨j1, hj1⟩, _, hmono1,
        ⟨c1, hcs1, hcf1⟩⟩ := epStep_spec hseg h1 hinv
      obtain ⟨inv2, ⟨n2, htree2, hpp2⟩, hm2, hi2, hn2, hb2, hpref2, hmono2,
        ⟨c2, hcs2, hcf2⟩⟩ := ih s1 s' h inv1 hrest
      refine ⟨inv2, ⟨n1 ++ n2, ?_, ?_⟩, hm2.trans hm1, hi2.trans hi1,
        le_trans hn1 hn2, ?_, ?_, ?_, ⟨c1 ++ c2, ?_, ?_⟩⟩
      · rw [htree2, htree1, List.append_assoc]
      · exact parentsPrior_append hpp1 (by rw [← htree1]; exact hpp2)
      · rw [hb2, hb1, List.foldl_cons]
      · intro q hq
        simp only [builtPrefixes, List.mem_cons] at hq
        rcases hq with hq | hq
        · subst hq
          exact hmono2 _ j1 hj1
        · rw [← hb1] at hq
          exact hpref2 q hq
      · intro q i hq
        obtain ⟨j, hj⟩ := hmono1 q i hq
        exact hmono2 q j hj
      · rw [hcs2, hcs1, List.append_assoc]
      · intro c hc
        rcases List.mem_append.mp hc with hc | hc
        · obtain ⟨rp, hrp, hid, rc, hrc, hp1, hp2⟩ := hcf1 c hc
          exact ⟨rp, by rw [htree2]; exact List.mem_append_left _ hrp, hid,
            rc, by rw [htree2]; exact List.mem_append_left _ hrc, hp1, hp2⟩
        · exact hcf2 c hc

theorem epStep_total {s : EPState} (seg : String) (hinv : EPInv s)
    (hps : s.parentId.isSome = true) : ∃ s1, epStep s seg = some s1 := by
  simp only [epStep]
  cases hl : lookupD s.resources (buildStep s.builtPath seg) with
  | some i => exact ⟨_, rfl⟩
  | none =>
    obtain ⟨pid, hp⟩ := Option.isSome_iff_exists.mp hps
    rw [hp]
    obtain ⟨rp, hrp, hrpid, _⟩ := hinv.parentOk pid hp
    cases hf : findRes s.st.tree pid with
    | none =>
      exfalso
      have hx := List.find?_eq_none.mp hf rp hrp
      simp [hrpid] at hx
    | some pres =>
      simp [create_resource, hf]

theorem epLoop_total : ∀ (segs : List String) (s : EPState), EPInv s →
    s.parentId.isSome = true → (∀ seg ∈ segs, seg ≠ "") →
    ∃ s', epLoop s segs = some s' := by
  intro segs
  induction segs with
  | nil => intro s _ _ _; exact ⟨s, rfl⟩
  | cons seg rest ih =>
    intro s hinv hps hne
    have hseg : seg ≠ "" := hne seg (List.mem_cons_self _ _)
    have hrest : ∀ x ∈ rest, x ≠ "" := fun x hx => hne x (List.mem_cons_of_mem _ hx)
    obtain ⟨s1, h1⟩ := epStep_total seg hinv hps
    obtain ⟨inv1, _, _, _, _, _, _, hps1, _, _⟩ := epStep_spec hseg h1 hinv
    obtain ⟨s', h'⟩ := ih s1 inv1 hps1 hrest
    exact ⟨s', by simp only [epLoop]; rw [h1]; simpa using h'⟩

theorem EPInv_init (st : ApiState) (hwf : wfState st) : EPInv (epInit st) := by
  obtain ⟨h1, h2, h3⟩ := hwf
  refine { wfIds := h1, wfPaths := h2, wfFresh := h3,
           dictSound := fun p i h => lookupD_fetch_sound h,
           dictComplete := fun r hr => lookupD_fetch_complete hr,
           parentOk := ?_, builtOk := ?_ }
  · intro pid hpid
    obtain ⟨r, hr, hrpath, hrid⟩ := lookupD_fetch_sound hpid
    exact ⟨r, hr, hrid, by simpa [epInit] using hrpath⟩
  · show ("" : String) ≠ "/"
    decide

theorem pathSegments_ne_empty (path : String) : ∀ seg ∈ pathSegments path, seg ≠ "" := by
  intro seg hseg
  unfold pathSegments at hseg
  have hx := List.of_mem_filter hseg
  simpa using hx

theorem foldl_mem_builtPrefixes : ∀ (segs : List String) (b : String), segs ≠ [] →
    List.foldl buildStep b segs ∈ builtPrefixes b segs := by
  intro segs
  induction segs with
  | nil => intro b h; exact absurd rfl h
  | cons seg rest ih =>
    intro b _
    simp only [builtPrefixes, List.foldl_cons]
    by_cases h : rest = []
    · subst h
      simp [builtPrefixes]
    · exact List.mem_cons_of_mem _ (ih (buildStep b seg) h)

/-! ## `ensure_path`: success specification and totality -/

theorem ensure_path_spec {st : ApiState} {path : String} {st' : ApiState} {i : Nat}
    {cs : List (Nat × String)} (hwf : wfState st)
    (h : ensure_path st path = some (st', i, cs)) :
    wfState st' ∧
    (∃ news, st'.tree = st.tree ++ news ∧ parentsPrior st.tree news) ∧
    st'.methods = st.methods ∧ st'.integrations = st.integrations ∧
    st.nextId ≤ st'.nextId ∧
    (∃ r ∈ st'.tree, r.path = path ∧ r.id = i) ∧
    (∀ c ∈ cs, ∃ rp ∈ st'.tree, rp.id = c.1 ∧
      ∃ rc ∈ st'.tree, rc.path = childPath rp.path c.2 ∧ rc.parentId = some c.1) := by
  simp only [ensure_path] at h
  cases hl : lookupD (fetchResources st.tree) path with
  | some j =>
    simp only [hl, Option.some.injEq, Prod.mk.injEq] at h
    obtain ⟨h1, h2, h3⟩ := h
    subst h1; subst h2; subst h3
    exact ⟨hwf, ⟨[], by simp, trivial⟩, rfl, rfl, le_refl _,
      lookupD_fetch_sound hl, by simp⟩
  | none =>
    simp only [hl] at h
    cases he : epLoop (epInit st) (pathSegments path) with
    | none => simp only [he] at h; exact Option.noConfusion h
    | some sEnd =>
      simp only [he] at h
      cases hfinal : lookupD sEnd.resources path with
      | none => simp only [hfinal] at h; exact Option.noConfusion h
      | some j =>
        simp only [hfinal, Option.some.injEq, Prod.mk.injEq] at h
        obtain ⟨h1, h2, h3⟩ := h
        obtain ⟨inv, ⟨news, htree, hpp⟩, hm, hi, hn, _, _, _, ⟨newCs, hcs, hcf⟩⟩ :=
          epLoop_spec (pathSegments path) _ sEnd he (EPInv_init st hwf)
            (pathSegments_ne_empty path)
        subst h1; subst h2; subst h3
        refine ⟨⟨inv.wfIds, inv.wfPaths, inv.wfFresh⟩, ⟨news, htree, hpp⟩, hm, hi, hn,
          inv.dictSound path _ hfinal, ?_⟩
        intro c hc
        apply hcf
        have hx : sEnd.creates = newCs := by simpa [epInit] using hcs
        rw [← hx]
        exact hc

theorem ensure_path_total {st : ApiState} {path : String} {segs : List String}
    (hwf : wfState st) (hroot : ∃ r ∈ st.tree, r.path = "/")
    (hsegs : pathSegments path = segs) (hne : segs ≠ [])
    (hpath : path = List.foldl buildStep "" segs) :
    ∃ out, ensure_path st path = some out := by
  simp only [ensure_path]
  cases hl : lookupD (fetchResources st.tree) path with
  | some i => exact ⟨(st, i, []), rfl⟩
  | none =>
    have hinv := EPInv_init st hwf
    have hps : (lookupD (fetchResources st.tree) "/").isSome = true := by
      obtain ⟨r, hr, hrpath⟩ := hroot
      obtain ⟨j, hj⟩ := lookupD_fetch_complete hr
      rw [hrpath] at hj
      simp [hj]
    obtain ⟨sEnd, hloop⟩ := epLoop_total (pathSegments path) _ hinv hps
      (pathSegments_ne_empty path)
    simp only [hloop]
    have hspec := epLoop_spec (pathSegments path) _ sEnd hloop hinv
      (pathSegments_ne_empty path)
    have hmem : path ∈ builtPrefixes "" (pathSegments path) := by
      rw [hsegs, hpath]
      exact foldl_mem_builtPrefixes segs "" hne
    obtain ⟨j, hj⟩ := hspec.2.2.2.2.2.2.1 path hmem
    simp only [hj]
    exact ⟨_, rfl⟩

/-! ## C2: tree completeness of `ensure_path` -/

/-- C2: on a well-formed gateway tree whose fetched mapping contains the
root path, for a desired path that starts with `/` and splits into
non-empty slash-free segments (stated as: the path equals the rebuilt walk
of its non-empty segments), `ensure_path` succeeds, leaves every partial
prefix path of the desired path present as a resource, returns the id of
the full path, and every `create_resource` call it issued named as
`parentId` the id of the node for the immediate parent prefix, with
created nodes appended in parent-before-child order. -/
theorem ensure_path_tree_completeness (st : ApiState) (path : String)
    (segs : List String) (hwf : wfState st) (hpc : prefixClosed st)
    (hroot : ∃ r ∈ st.tree, r.path = "/")
    (hsegs : pathSegments path = segs) (hne : segs ≠ [])
    (hpath : path = List.foldl buildStep "" segs) :
    ∃ st' i cs, ensure_path st path = some (st', i, cs) ∧
      (∀ q ∈ builtPrefixes "" segs, ∃ r ∈ st'.tree, r.path = q) ∧
      (∃ r ∈ st'.tree, r.path = path ∧ r.id = i) ∧
      (∃ news, st'.tree = st.tree ++ news ∧ parentsPrior st.tree news) ∧
      (∀ c ∈ cs, ∃ rp ∈ st'.tree, rp.id = c.1 ∧
        ∃ rc ∈ st'.tree, rc.path = childPath rp.path c.2 ∧ rc.parentId = some c.1) := by
  obtain ⟨out, hout⟩ := ensure_path_total hwf hroot hsegs hne hpath
  obtain ⟨st', i, cs⟩ := out
  obtain ⟨hwf', hnews, hm, hi, hn, hr, hcs⟩ := ensure_path_spec hwf hout
  refine ⟨st', i, cs, hout, ?_, hr, hnews, hcs⟩
  intro q hq
  have hout2 := hout
  simp only [ensure_path] at hout2
  cases hl : lookupD (fetchResources st.tree) path with
  | some j =>
    simp only [hl, Option.some.injEq, Prod.mk.injEq] at hout2
    obtain ⟨hst, _, _⟩ := hout2
    obtain ⟨r, hrmem, hrpath, _⟩ := lookupD_fetch_sound hl
    have hq2 : q ∈ builtPrefixes "" (pathSegments r.path) := by
      rw [hrpath, hsegs]
      exact hq
    obtain ⟨r2, hr2, hr2p⟩ := hpc r hrmem q hq2
    exact ⟨r2, by rw [← hst]; exact hr2, hr2p⟩
  | none =>
    simp only [hl] at hout2
    cases he : epLoop (epInit st) (pathSegments path) with
    | none => simp only [he] at hout2; exact Option.noConfusion hout2
    | some sEnd =>
      simp only [he] at hout2
      have hspec := epLoop_spec (pathSegments path) _ sEnd he (EPInv_init st hwf)
        (pathSegments_ne_empty path)
      have hq2 : q ∈ builtPrefixes "" (pathSegments path) := by
        rw [hsegs]; exact hq
      obtain ⟨j, hj⟩ := hspec.2.2.2.2.2.2.1 q hq2
      obtain ⟨r2, hr2, hr2p, _⟩ := hspec.1.dictSound q j hj
      cases hfinal : lookupD sEnd.resources path with
      | none => simp only [hfinal] at hout2; exact Option.noConfusion hout2
      | some k =>
        simp only [hfinal, Option.some.injEq, Prod.mk.injEq] at hout2
        obtain ⟨hst, _, _⟩ := hout2
        exact ⟨r2, by rw [← hst]; exact hr2, hr2p⟩

/-- Witness for C2: growing `/orders/{id}` on a tree holding only the
root. -/
theorem ensure_path_tree_completeness_witness :
    ∃ st' i cs,
      ensure_path ⟨[⟨0, "/", none⟩], 1, [], []⟩ "/orders/{id}" = some (st', i, cs) ∧
      (∀ q ∈ builtPrefixes "" ["orders", "{id}"], ∃ r ∈ st'.tree, r.path = q) ∧
      (∃ r ∈ st'.tree, r.path = "/orders/{id}" ∧ r.id = i) ∧
      (∃ news, st'.tree = (⟨[⟨0, "/", none⟩], 1, [], []⟩ : ApiState).tree ++ news ∧
        parentsPrior (⟨[⟨0, "/", none⟩], 1, [], []⟩ : ApiState).tree news) ∧
      (∀ c ∈ cs, ∃ rp ∈ st'.tree, rp.id = c.1 ∧
        ∃ rc ∈ st'.tree, rc.path = childPath rp.path c.2 ∧ rc.parentId = some c.1) :=
  ensure_path_tree_completeness ⟨[⟨0, "/", none⟩], 1, [], []⟩ "/orders/{id}"
    ["orders", "{id}"] (by unfold wfState; decide) (by unfold prefixClosed; decide)
    (by decide) (by decide) (by decide) (by decide)

/-! ## Method reconciliation: state effects -/

theorem hasMethod_only_methods {st st' : ApiState} (h : st'.methods = st.methods)
    (a : Nat) (b : String) : hasMethod st' a b = hasMethod st a b := by
  simp [hasMethod, h]

theorem filter_of_not_hasMethod {st : ApiState} {rid : Nat} {M : String}
    (h : hasMethod st rid M = false) :
    st.methods.filter (fun mm => ¬(mm.1 = rid ∧ mm.2.1 = M)) = st.methods := by
  apply List.filter_eq_self.mpr
  intro a ha
  unfold hasMethod at h
  rw [List.any_eq_false] at h
  have hx := h a ha
  rw [decide_eq_true_eq] at hx
  rw [decide_eq_true_eq]
  exact hx

theorem putIntegrationSt_methods (st : ApiState) (rid : Nat) (verb : String)
    (integ : String × String × String) :
    (putIntegrationSt st rid verb integ).methods = st.methods := rfl

theorem putIntegrationSt_tree (st : ApiState) (rid : Nat) (verb : String)
    (integ : String × String × String) :
    (putIntegrationSt st rid verb integ).tree = st.tree := rfl

theorem putIntegrationSt_nextId (st : ApiState) (rid : Nat) (verb : String)
    (integ : String × String × String) :
    (putIntegrationSt st rid verb integ).nextId = st.nextId := rfl

theorem em_eq_of_hasMethod (e : Env) (st : ApiState) (rid : Nat) (m arn : String)
    (h1 : hasMethod st rid (pyUpper m) = true) :
    ensure_method_and_integration e st rid m arn =
      (putIntegrationSt st rid (pyUpper m) ("AWS_PROXY", "POST", integrationUri e arn),
       { getMethodCalls := [(rid, pyUpper m)], putMethodCalls := [],
         getIntegrationCalls := [(rid, pyUpper m)],
         putIntegrationCalls :=
           [((rid, pyUpper m), ("AWS_PROXY", "POST", integrationUri e arn))] }) := by
  unfold ensure_method_and_integration
  simp [h1]

theorem em_eq_of_not_hasMethod (e : Env) (st : ApiState) (rid : Nat) (m arn : String)
    (h1 : hasMethod st rid (pyUpper m) = false) :
    ensure_method_and_integration e st rid m arn =
      (putIntegrationSt (putMethodSt st rid (pyUpper m) "NONE") rid (pyUpper m)
         ("AWS_PROXY", "POST", integrationUri e arn),
       { getMethodCalls := [(rid, pyUpper m)],
         putMethodCalls := [(rid, pyUpper m, "NONE")],
         getIntegrationCalls := [(rid, pyUpper m)],
         putIntegrationCalls :=
           [((rid, pyUpper m), ("AWS_PROXY", "POST", integrationUri e arn))] }) := by
  unfold ensure_method_and_integration
  simp [h1]

theorem putMethodSt_methods_of_absent {st : ApiState} {rid : Nat} {M : String}
    (h : hasMethod st rid M = false) (auth : String) :
    (putMethodSt st rid M auth).methods = st.methods ++ [(rid, M, auth)] := by
  simp only [putMethodSt]
  rw [filter_of_not_hasMethod h]

theorem em_effects (e : Env) (st : ApiState) (rid : Nat) (m arn : String) :
    (ensure_method_and_integration e st rid m arn).1.tree = st.tree ∧
    (ensure_method_and_integration e st rid m arn).1.nextId = st.nextId ∧
    (∃ ms, (ensure_method_and_integration e st rid m arn).1.methods = st.methods ++ ms) ∧
    (hasMethod st rid (pyUpper m) = true →
      (ensure_method_and_integration e st rid m arn).1.methods = st.methods ∧
      (ensure_method_and_integration e st rid m arn).2.putMethodCalls = []) ∧
    hasMethod (ensure_method_and_integration e st rid m arn).1 rid (pyUpper m) = true ∧
    (∀ a b, hasMethod st a b = true →
      hasMethod (ensure_method_and_integration e st rid m arn).1 a b = true) := by
  by_cases h1 : hasMethod st rid (pyUpper m)
  · rw [em_eq_of_hasMethod e st rid m arn h1]
    refine ⟨rfl, rfl, ⟨[], by simp [putIntegrationSt_methods]⟩,
      fun _ => ⟨putIntegrationSt_methods _ _ _ _, rfl⟩, ?_, ?_⟩
    · rw [hasMethod_only_methods (putIntegrationSt_methods _ _ _ _)]
      exact h1
    · intro a b hab
      rw [hasMethod_only_methods (putIntegrationSt_methods _ _ _ _)]
      exact hab
  · rw [Bool.not_eq_true] at h1
    rw [em_eq_of_not_hasMethod e st rid m arn h1]
    have hmeth : (putIntegrationSt (putMethodSt st rid (pyUpper m) "NONE") rid (pyUpper m)
        ("AWS_PROXY", "POST", integrationUri e arn)).methods =
        st.methods ++ [(rid, pyUpper m, "NONE")] := by
      rw [putIntegrationSt_methods]
      exact putMethodSt_methods_of_absent h1 "NONE"
    refine ⟨rfl, rfl, ⟨[(rid, pyUpper m, "NONE")], hmeth⟩,
      fun hc => absurd hc (by simp [h1]), ?_, ?_⟩
    · simp [hasMethod, hmeth]
    · intro a b hab
      simp only [hasMethod, hmeth, List.any_append, Bool.or_eq_true]
      exact Or.inl hab

theorem emTrace_counts (c : EMCalls) :
    (emTrace c).countP RCall.isCreateResource = 0 ∧
    (emTrace c).countP RCall.isPutMethod = c.putMethodCalls.length := by
  have hmap0 : ∀ {α : Type} (l : List α) (f : α → RCall) (p : RCall → Bool),
      (∀ x, p (f x) = false) → (l.map f).countP p = 0 := by
    intro α l f p hp
    apply List.countP_eq_zero.mpr
    intro a ha
    obtain ⟨x, _, hx⟩ := List.mem_map.mp ha
    rw [← hx]
    simp [hp x]
  have hmap1 : ∀ {α : Type} (l : List α) (f : α → RCall) (p : RCall → Bool),
      (∀ x, p (f x) = true) → (l.map f).countP p = l.length := by
    intro α l f p hp
    rw [List.countP_eq_length.mpr, List.length_map]
    intro a ha
    obtain ⟨x, _, hx⟩ := List.mem_map.mp ha
    rw [← hx]
    simp [hp x]
  constructor
  · simp only [emTrace, List.countP_append]
    rw [hmap0 c.getMethodCalls (fun g => RCall.getMethod g.1 g.2) _ (fun x => rfl),
      hmap0 c.putMethodCalls (fun p => RCall.putMethod p.1 p.2.1 p.2.2) _ (fun x => rfl),
      hmap0 c.getIntegrationCalls (fun g => RCall.getIntegration g.1 g.2) _ (fun x => rfl),
      hmap0 c.putIntegrationCalls (fun p => RCall.putIntegration p.1.1 p.1.2) _ (fun x => rfl)]
  · simp only [emTrace, List.countP_append]
    rw [hmap0 c.getMethodCalls (fun g => RCall.getMethod g.1 g.2) _ (fun x => rfl),
      hmap1 c.putMethodCalls (fun p => RCall.putMethod p.1 p.2.1 p.2.2) _ (fun x => rfl),
      hmap0 c.getIntegrationCalls (fun g => RCall.getIntegration g.1 g.2) _ (fun x => rfl),
      hmap0 c.putIntegrationCalls (fun p => RCall.putIntegration p.1.1 p.1.2) _ (fun x => rfl)]
    omega

theorem syncMethods_spec (e : Env) (rid : Nat) (arn : String) :
    ∀ (ms : List String) (st : ApiState),
    (syncMethods e st rid arn ms).1.tree = st.tree ∧
    (syncMethods e st rid arn ms).1.nextId = st.nextId ∧
    (∃ app, (syncMethods e st rid arn ms).1.methods = st.methods ++ app) ∧
    (∀ a b, hasMethod st a b = true →
      hasMethod (syncMethods e st rid arn ms).1 a b = true) ∧
    (∀ m ∈ ms, hasMethod (syncMethods e st rid arn ms).1 rid (pyUpper m) = true) := by
  intro ms
  induction ms with
  | nil =>
    intro st
    exact ⟨rfl, rfl, ⟨[], by simp [syncMethods]⟩, fun a b h => h, by simp⟩
  | cons m rest ih =>
    intro st
    obtain ⟨ht1, hn1, ⟨ms1, hm1⟩, hdone1, hmono1, hmonoall1⟩ := em_effects e st rid m arn
    obtain ⟨ht2, hn2, ⟨ms2, hm2⟩, hmono2, hall2⟩ :=
      ih (ensure_method_and_integration e st rid m arn).1
    simp only [syncMethods]
    refine ⟨by rw [ht2, ht1], by rw [hn2, hn1], ⟨ms1 ++ ms2, ?_⟩, ?_, ?_⟩
    · rw [hm2, hm1, List.append_assoc]
    · intro a b hab
      exact hmono2 a b (hmonoall1 a b hab)
    · intro m2 hm2mem
      rcases List.mem_cons.mp hm2mem with hh | hh
      · subst hh
        exact hmono2 _ _ hmono1
      · exact hall2 m2 hh

theorem syncMethods_done (e : Env) (rid : Nat) (arn : String) :
    ∀ (ms : List String) (st : ApiState),
    (∀ m ∈ ms, hasMethod st rid (pyUpper m) = true) →
    (syncMethods e st rid arn ms).1.tree = st.tree ∧
    (syncMethods e st rid arn ms).1.nextId = st.nextId ∧
    (syncMethods e st rid arn ms).1.methods = st.methods ∧
    (syncMethods e st rid arn ms).2.countP RCall.isCreateResource = 0 ∧
    (syncMethods e st rid arn ms).2.countP RCall.isPutMethod = 0 := by
  intro ms
  induction ms with
  | nil =>
    intro st _
    exact ⟨rfl, rfl, rfl, rfl, rfl⟩
  | cons m rest ih =>
    intro st hall
    have hm := hall m (List.mem_cons_self _ _)
    obtain ⟨hmeth1, hput1⟩ := (em_effects e st rid m arn).2.2.2.1 hm
    have ht1 := (em_effects e st rid m arn).1
    have hn1 := (em_effects e st rid m arn).2.1
    have hrest : ∀ m2 ∈ rest, hasMethod (ensure_method_and_integration e st rid m arn).1
        rid (pyUpper m2) = true := by
      intro m2 hm2
      rw [hasMethod_only_methods hmeth1]
      exact hall m2 (List.mem_cons_of_mem _ hm2)
    obtain ⟨ht2, hn2, hm2, hc2, hp2⟩ := ih (ensure_method_and_integration e st rid m arn).1 hrest
    simp only [syncMethods]
    refine ⟨by rw [ht2, ht1], by rw [hn2, hn1], by rw [hm2, hmeth1],
      ?_, ?_⟩
    · rw [List.countP_append, hc2, (emTrace_counts _).1]
    · rw [List.countP_append, hp2, (emTrace_counts _).2, hput1]
      rfl

theorem pathDone_mono {st st' : ApiState} {p : String} (h : pathDone st p)
    (ht : ∃ news, st'.tree = st.tree ++ news)
    (hm : ∃ app, st'.methods = st.methods ++ app) : pathDone st' p := by
  obtain ⟨r, hr, hrp, hrm⟩ := h
  obtain ⟨news, htree⟩ := ht
  obtain ⟨app, hmeth⟩ := hm
  refine ⟨r, by rw [htree]; exact List.mem_append_left _ hr, hrp, ?_⟩
  intro m hmm
  simp only [hasMethod, hmeth, List.any_append, Bool.or_eq_true]
  exact Or.inl (hrm m hmm)

/-! ## `syncPath`: one loop iteration -/

theorem syncPath_spec (e : Env) {st st' : ApiState} {p arn : String}
    {rid : Nat} {tr : List RCall} (hwf : wfState st)
    (h : syncPath e st p arn = some (st', rid, tr)) :
    wfState st' ∧
    (∃ news, st'.tree = st.tree ++ news) ∧
    (∃ app, st'.methods = st.methods ++ app) ∧
    pathDone st' p := by
  simp only [syncPath] at h
  cases hep : ensure_path st p with
  | none => simp only [hep] at h; exact Option.noConfusion h
  | some out =>
    obtain ⟨st1, rid1, cs⟩ := out
    simp only [hep, Option.some.injEq, Prod.mk.injEq] at h
    obtain ⟨h1, h2, h3⟩ := h
    obtain ⟨hwf1, ⟨news, htree, _⟩, hmeth, _, _, ⟨r, hr, hrp, hrid⟩, _⟩ :=
      ensure_path_spec hwf hep
    obtain ⟨ht2, hn2, ⟨app, hm2⟩, _, hall2⟩ := syncMethods_spec e rid1 arn methods6 st1
    subst h1
    refine ⟨?_, ⟨news, by rw [ht2, htree]⟩, ⟨app, by rw [hm2, hmeth]⟩, ?_⟩
    · obtain ⟨w1, w2, w3⟩ := hwf1
      exact ⟨by rw [ht2]; exact w1, by rw [ht2]; exact w2,
        fun r2 hr2 => by rw [hn2]; exact w3 r2 (by rw [← ht2]; exact hr2)⟩
    · refine ⟨r, by rw [ht2]; exact hr, hrp, ?_⟩
      intro m hm
      rw [hrid]
      exact hall2 m hm

theorem syncPath_done (e : Env) (arn : String) {st : ApiState} {p : String}
    (hwf : wfState st) (hd : pathDone st p) :
    ∃ st' rid tr, syncPath e st p arn = some (st', rid, tr) ∧
      st'.tree = st.tree ∧ st'.methods = st.methods ∧ st'.nextId = st.nextId ∧
      tr.countP RCall.isCreateResource = 0 ∧ tr.countP RCall.isPutMethod = 0 := by
  obtain ⟨r, hr, hrp, hrm⟩ := hd
  obtain ⟨i, hi⟩ := lookupD_fetch_complete hr
  rw [hrp] at hi
  have hhit := ensure_path_hit_no_writes st p i hi
  obtain ⟨r2, hr2, hr2p, hr2i⟩ := lookupD_fetch_sound hi
  have hr2eq : r2 = r := nodup_map_unique hwf.2.1 hr2 hr (by rw [hr2p, hrp])
  have hiid : i = r.id := by rw [← hr2i, hr2eq]
  have hmeths : ∀ m ∈ methods6, hasMethod st i (pyUpper m) = true := by
    intro m hm
    rw [hiid]
    exact hrm m hm
  obtain ⟨ht2, hn2, hm2, hc2, hp2⟩ := syncMethods_done e i arn methods6 st hmeths
  refine ⟨(syncMethods e st i arn methods6).1, i,
    RCall.getResources ::
      List.map (fun c : Nat × String => RCall.createResource c.1 c.2)
        ([] : List (Nat × String)) ++
      (syncMethods e st i arn methods6).2, ?_, ht2, hm2, hn2, ?_, ?_⟩
  · simp only [syncPath, hhit]
  · simp [List.countP_append, List.countP_cons, hc2, RCall.isCreateResource]
  · simp [List.countP_append, List.countP_cons, hp2, RCall.isPutMethod]

/-! ## `reconcile`: the whole loop, run twice -/

theorem reconcile_spec (e : Env) (arn : String) :
    ∀ (paths : List String) (st st1 : ApiState) (tr : List RCall),
    wfState st → reconcile e st paths arn = some (st1, tr) →
    wfState st1 ∧
    (∃ news, st1.tree = st.tree ++ news) ∧
    (∃ app, st1.methods = st.methods ++ app) ∧
    (∀ p ∈ paths, pathDone st1 p) := by
  intro paths
  induction paths with
  | nil =>
    intro st st1 tr hwf h
    simp only [reconcile, Option.some.injEq, Prod.mk.injEq] at h
    obtain ⟨h1, _⟩ := h
    subst h1
    exact ⟨hwf, ⟨[], by simp⟩, ⟨[], by simp⟩, by simp⟩
  | cons p rest ih =>
    intro st st1 tr hwf h
    simp only [reconcile] at h
    cases hsp : syncPath e st p arn with
    | none => simp only [hsp] at h; exact Option.noConfusion h
    | some out =>
      obtain ⟨stA, ridA, trA⟩ := out
      simp only [hsp] at h
      cases hrec : reconcile e stA rest arn with
      | none => simp only [hrec] at h; exact Option.noConfusion h
      | some out2 =>
        obtain ⟨stB, trB⟩ := out2
        simp only [hrec, Option.some.injEq, Prod.mk.injEq] at h
        obtain ⟨h1, _⟩ := h
        subst h1
        obtain ⟨hwfA, ⟨newsA, htA⟩, ⟨appA, hmA⟩, hdoneA⟩ := syncPath_spec e hwf hsp
        obtain ⟨hwfB, ⟨newsB, htB⟩, ⟨appB, hmB⟩, hdoneB⟩ := ih stA stB trB hwfA hrec
        refine ⟨hwfB, ⟨newsA ++ newsB, by rw [htB, htA, List.append_assoc]⟩,
          ⟨appA ++ appB, by rw [hmB, hmA, List.append_assoc]⟩, ?_⟩
        intro q hq
        rcases List.mem_cons.mp hq with hh | hh
        · subst hh
          exact pathDone_mono hdoneA ⟨newsB, htB⟩ ⟨appB, hmB⟩
        · exact hdoneB q hh

theorem reconcile_done (e : Env) (arn : String) :
    ∀ (paths : List String) (st : ApiState),
    wfState st → (∀ p ∈ paths, pathDone st p) →
    ∃ st2 tr2, reconcile e st paths arn = some (st2, tr2) ∧
      st2.tree = st.tree ∧ st2.methods = st.methods ∧ st2.nextId = st.nextId ∧
      tr2.countP RCall.isCreateResource = 0 ∧ tr2.countP RCall.isPutMethod = 0 := by
  intro paths
  induction paths with
  | nil =>
    intro st _ _
    exact ⟨st, [], rfl, rfl, rfl, rfl, rfl, rfl⟩
  | cons p rest ih =>
    intro st hwf hall
    obtain ⟨stA, ridA, trA, hspA, htA, hmA, hnA, hcA, hpA⟩ :=
      syncPath_done e arn hwf (hall p (List.mem_cons_self _ _))
    have hwfA : wfState stA := by
      obtain ⟨w1, w2, w3⟩ := hwf
      exact ⟨by rw [htA]; exact w1, by rw [htA]; exact w2,
        fun r hr => by rw [hnA]; exact w3 r (by rw [← htA]; exact hr)⟩
    have hallA : ∀ q ∈ rest, pathDone stA q := by
      intro q hq
      obtain ⟨r, hr, hrp, hrm⟩ := hall q (List.mem_cons_of_mem _ hq)
      refine ⟨r, by rw [htA]; exact hr, hrp, ?_⟩
      intro mm hmm
      rw [hasMethod_only_methods hmA]
      exact hrm mm hmm
    obtain ⟨stB, trB, hrecB, htB, hmB, hnB, hcB, hpB⟩ := ih stA hwfA hallA
    refine ⟨stB, trA ++ trB, ?_, by rw [htB, htA], by rw [hmB, hmA],
      by rw [hnB, hnA], ?_, ?_⟩
    · simp only [reconcile, hspA, hrecB]
    · rw [List.countP_append, hcA, hcB]
    · rw [List.countP_append, hpA, hpB]

/-! ## C1: reconciliation is idempotent -/

/-- C1: on a well-formed gateway state, if the full reconciliation
(`ensure_path` per path, then the six fixed methods per resolved resource)
succeeds, running it a second time succeeds, leaves the resource tree and
the method set exactly as after the first run, and issues zero
`create_resource` and zero `put_method` calls. -/
theorem reconcile_idempotent (e : Env) (st : ApiState) (paths : List String)
    (arn : String) (st1 : ApiState) (tr1 : List RCall) (hwf : wfState st)
    (h1 : reconcile e st paths arn = some (st1, tr1)) :
    ∃ st2 tr2, reconcile e st1 paths arn = some (st2, tr2) ∧
      st2.tree = st1.tree ∧ st2.methods = st1.methods ∧
      tr2.countP RCall.isCreateResource = 0 ∧
      tr2.countP RCall.isPutMethod = 0 := by
  obtain ⟨hwf1, _, _, hdone⟩ := reconcile_spec e arn paths st st1 tr1 hwf h1
  obtain ⟨st2, tr2, hrec, ht, hm, _, hc, hp⟩ := reconcile_done e arn paths st1 hwf1 hdone
  exact ⟨st2, tr2, hrec, ht, hm, hc, hp⟩

/-- Witness for C1: reconciling `/orders` twice against a tree holding
only the root. -/
theorem reconcile_idempotent_witness :
    ∃ st2 tr2,
      reconcile (⟨some "us-east-1", none, none, none⟩ : Env)
        ((reconcile (⟨some "us-east-1", none, none, none⟩ : Env)
          (⟨[⟨0, "/", none⟩], 1, [], []⟩ : ApiState) ["/orders"] "arnL").getD
            ((⟨[], 0, [], []⟩ : ApiState), [])).1
        ["/orders"] "arnL" = some (st2, tr2) ∧
      st2.tree = ((reconcile (⟨some "us-east-1", none, none, none⟩ : Env)
          (⟨[⟨0, "/", none⟩], 1, [], []⟩ : ApiState) ["/orders"] "arnL").getD
            ((⟨[], 0, [], []⟩ : ApiState), [])).1.tree ∧
      st2.methods = ((reconcile (⟨some "us-east-1", none, none, none⟩ : Env)
          (⟨[⟨0, "/", none⟩], 1, [], []⟩ : ApiState) ["/orders"] "arnL").getD
            ((⟨[], 0, [], []⟩ : ApiState), [])).1.methods ∧
      tr2.countP RCall.isCreateResource = 0 ∧
      tr2.countP RCall.isPutMethod = 0 :=
  reconcile_idempotent (⟨some "us-east-1", none, none, none⟩ : Env)
    (⟨[⟨0, "/", none⟩], 1, [], []⟩ : ApiState) ["/orders"] "arnL"
    ((reconcile (⟨some "us-east-1", none, none, none⟩ : Env)
      (⟨[⟨0, "/", none⟩], 1, [], []⟩ : ApiState) ["/orders"] "arnL").getD
        ((⟨[], 0, [], []⟩ : ApiState), [])).1
    ((reconcile (⟨some "us-east-1", none, none, none⟩ : Env)
      (⟨[⟨0, "/", none⟩], 1, [], []⟩ : ApiState) ["/orders"] "arnL").getD
        ((⟨[], 0, [], []⟩ : ApiState), [])).2
    (by unfold wfState; decide) (by decide)

/-! ## C4: what precedes the configuration check in `main` -/

/-- C4 counterexample: on a run whose configuration file holds a JSON
object, `main` does abort with the configuration error, but the identity
lookup, the gateway listing and the handler resolution have already been
issued by then — so remote calls do precede the configuration check. -/
theorem main_config_error_counterexample :
    (runMain ⟨⟨some "us-east-1", none, none, none⟩, [("MainApiGateway", "api1")],
        [("project-users", "arnU")], "acct", some (JVal.obj []),
        ⟨[⟨0, "/", none⟩], 1, [], []⟩, ⟨[], none⟩⟩
      ⟨"users", "prod", "MainApiGateway", "project-"⟩).1 =
      Except.error (MainErr.configError ConfigErr.valueError) ∧
    (runMain ⟨⟨some "us-east-1", none, none, none⟩, [("MainApiGateway", "api1")],
        [("project-users", "arnU")], "acct", some (JVal.obj []),
        ⟨[⟨0, "/", none⟩], 1, [], []⟩, ⟨[], none⟩⟩
      ⟨"users", "prod", "MainApiGateway", "project-"⟩).2 =
      [RCall.getCallerIdentity, RCall.getRestApis, RCall.getFunction "project-users"] := by
  constructor
  · rfl
  · rfl

/-- C4 (amended): a run whose configuration file holds a JSON object
aborts fatally before any remote mutation — the calls issued before the
abort are read-only (identity lookup, gateway listing, handler
resolution); when the gateway and the handler both resolve, the abort is
precisely the configuration error. -/
theorem main_object_config_aborts_before_mutation (w : World) (args : Args)
    (kvs : List (String × JVal)) (hcfg : w.config = some (JVal.obj kvs)) :
    (∃ err, (runMain w args).1 = Except.error err) ∧
    (∀ c ∈ (runMain w args).2, c.isMutation = false) ∧
    (∀ restApiId arn, find_rest_api_id_by_name w.apis args.apiName = some restApiId →
      (w.lambdaFns.find? (fun f => f.1 = args.lambdaNamePrefix ++ args.module)).map
          (fun f => f.2) = some arn →
      (runMain w args).1 = Except.error (MainErr.configError ConfigErr.valueError)) := by
  simp only [runMain]
  cases hapi : find_rest_api_id_by_name w.apis args.apiName with
  | none =>
    refine ⟨⟨MainErr.apiNotFound, rfl⟩, ?_, ?_⟩
    · intro c hc
      simp only [List.mem_append, List.mem_singleton, List.mem_cons,
        List.not_mem_nil, or_false] at hc
      rcases hc with hc | hc <;> subst hc <;> rfl
    · intro restApiId arn h1 _
      exact absurd h1 (by simp)
  | some restApiId =>
    cases hlam : (w.lambdaFns.find? (fun f => f.1 = args.lambdaNamePrefix ++ args.module)).map
        (fun f => f.2) with
    | none =>
      simp only [hlam]
      refine ⟨⟨MainErr.lambdaNotFound, rfl⟩, ?_, ?_⟩
      · intro c hc
        simp only [List.mem_append, List.mem_singleton, List.mem_cons,
          List.not_mem_nil, or_false] at hc
        rcases hc with (hc | hc) | hc <;> subst hc <;> rfl
      · intro r2 arn _ h2
        exact absurd h2 (by simp)
    | some arn =>
      simp only [hlam]
      have hload : load_paths w.config = Except.error ConfigErr.valueError := by
        rw [hcfg]
        rfl
      simp only [hload]
      refine ⟨⟨MainErr.configError ConfigErr.valueError, rfl⟩, ?_, ?_⟩
      · intro c hc
        simp only [List.mem_append, List.mem_singleton, List.mem_cons,
          List.not_mem_nil, or_false] at hc
        rcases hc with (hc | hc) | hc <;> subst hc <;> rfl
      · intro r2 a2 _ _
        trivial

/-- Witness for C4 (amended), on the same concrete world as the
counterexample. -/
theorem main_object_config_aborts_before_mutation_witness :
    (runMain ⟨⟨some "us-east-1", none, none, none⟩, [("MainApiGateway", "api1")],
        [("project-users", "arnU")], "acct", some (JVal.obj []),
        ⟨[⟨0, "/", none⟩], 1, [], []⟩, ⟨[], none⟩⟩
      ⟨"users", "prod", "MainApiGateway", "project-"⟩).1 =
      Except.error (MainErr.configError ConfigErr.valueError) :=
  (main_object_config_aborts_before_mutation
    ⟨⟨some "us-east-1", none, none, none⟩, [("MainApiGateway", "api1")],
      [("project-users", "arnU")], "acct", some (JVal.obj []),
      ⟨[⟨0, "/", none⟩], 1, [], []⟩, ⟨[], none⟩⟩
    ⟨"users", "prod", "MainApiGateway", "project-"⟩ [] rfl).2.2 "api1" "arnU" rfl rfl

end SyncRoutes
